import Mathlib

/-!
Verification development for the RobustGantt layout engine
(src/src/components/RobustGantt.jsx).

Modelling conventions.

* JS numbers are modelled as exact rationals; Math.round is `round`
  (both send x to the floor of x + 1/2, including for negative x),
  Math.floor is `Int.floor`, Math.max / Math.min are `max` / `min`.
* JS Date values are modelled by their millisecond timestamp as a
  rational, in a fixed timezone without daylight saving (local time =
  UTC), so getHours, getMinutes, getDay, getDate,
  setHours(0,0,0,0) and the new Date(y, m, d) constructor become
  arithmetic on the timestamp through the standard civil-calendar
  conversion (Gregorian, days since 1970-01-01).
* The repository file holds two component variants separated by a
  document marker.  The first variant (lines 1 to 1055) carries the
  window-intersection based projectTaskToView (lines 644 to 710); the
  second variant (lines 1056 to 1846) carries the older clock-field
  based projection (lines 1515 to 1543), embedded here as
  projectTaskToView2.  Functions that are textually identical in the
  two variants (assignLanes, segToPixels, snapPx, useGanttScale,
  the onUp handler) are embedded once.
* JS Array.prototype.sort is stable; the embedding uses
  List.insertionSort with a total preorder, which may order elements
  with equal (startUnit, endUnit) keys differently.  All properties
  proved below are insensitive to the order of key-equal elements.
-/

namespace RobustGantt

/-- Milliseconds in one hour (HOUR_MS = 60 * 60 * 1000). -/
def hourMs : ℚ := 3600000

/-- Milliseconds in one day (DAY_MS = 24 * HOUR_MS, dayMs = 86400000). -/
def dayMs : ℚ := 86400000

/-- Days from 1970-01-01 to the civil date (y, m, d) with m in 1..12
(standard Gregorian conversion, floor divisions).  Models the timestamp
arithmetic behind the JS Date constructor. -/
def daysFromCivil (y m d : ℤ) : ℤ :=
  let y2 := if m ≤ 2 then y - 1 else y
  let era := Int.fdiv y2 400
  let yoe := y2 - era * 400
  let mp := if m > 2 then m - 3 else m + 9
  let doy := Int.fdiv (153 * mp + 2) 5 + d - 1
  let doe := yoe * 365 + Int.fdiv yoe 4 - Int.fdiv yoe 100 + doy
  era * 146097 + doe - 719468

/-- Civil date (year, month 1..12, day) of a day number (days since
1970-01-01).  Inverse of `daysFromCivil`. -/
def civilFromDays (z0 : ℤ) : ℤ × ℤ × ℤ :=
  let z := z0 + 719468
  let era := Int.fdiv z 146097
  let doe := z - era * 146097
  let yoe := Int.fdiv (doe - Int.fdiv doe 1460 + Int.fdiv doe 36524 - Int.fdiv doe 146096) 365
  let y := yoe + era * 400
  let doy := doe - (365 * yoe + Int.fdiv yoe 4 - Int.fdiv yoe 100)
  let mp := Int.fdiv (5 * doy + 2) 153
  let d := doy - Int.fdiv (153 * mp + 2) 5 + 1
  let m := if mp < 10 then mp + 3 else mp - 9
  (if m ≤ 2 then y + 1 else y, m, d)

/-- Model of date.getFullYear() on a millisecond timestamp. -/
def jsGetFullYear (t : ℚ) : ℤ := (civilFromDays ⌊t / dayMs⌋).1

/-- Model of date.getMonth() (0-based month index, as in JS). -/
def jsGetMonth (t : ℚ) : ℤ := (civilFromDays ⌊t / dayMs⌋).2.1 - 1

/-- Model of date.getDate() (day of month 1..31). -/
def jsGetDate (t : ℚ) : ℤ := (civilFromDays ⌊t / dayMs⌋).2.2

/-- Model of date.getDay() (0 = Sunday .. 6 = Saturday); 1970-01-01 was
a Thursday, hence the +4. -/
def jsGetDay (t : ℚ) : ℤ := (⌊t / dayMs⌋ + 4) % 7

/-- Model of date.getHours(). -/
def jsGetHours (t : ℚ) : ℤ := ⌊t / hourMs⌋ % 24

/-- Model of date.getMinutes(). -/
def jsGetMinutes (t : ℚ) : ℤ := ⌊t / (60000 : ℚ)⌋ % 60

/-- Model of new Date(y, monthIndex, d) (monthIndex 0-based, normalized
as in JS, day may be 0 or negative), as a millisecond timestamp. -/
def jsMakeDate (y monthIndex d : ℤ) : ℚ :=
  dayMs * (daysFromCivil (y + Int.fdiv monthIndex 12) (Int.emod monthIndex 12 + 1) d : ℤ)

/-- Midnight of the civil day containing t; models both
setHours(0,0,0,0) and new Date(getFullYear, getMonth, getDate). -/
def msFloorDay (t : ℚ) : ℚ := dayMs * (⌊t / dayMs⌋ : ℤ)

/-- Model of daysInMonth: new Date(y, m+1, 0).getDate(). -/
def daysInMonth (t : ℚ) : ℤ :=
  jsGetDate (jsMakeDate (jsGetFullYear t) (jsGetMonth t + 1) 0)

/-- Model of clamp(n, a, b) = Math.max(a, Math.min(b, n)) on integers. -/
def clampZ (n a b : ℤ) : ℤ := max a (min b n)

/-- Model of clamp(n, a, b) on rationals. -/
def clampQ (n a b : ℚ) : ℚ := max a (min b n)

/-- A task, as consumed by the layout engine after normalizeTask:
start and end are instants (millisecond timestamps). -/
structure Task where
  id : String
  resourceId : String
  title : String
  startMs : ℚ
  endMs : ℚ
deriving DecidableEq

/-- A resource row. -/
structure Resource where
  id : String
  name : String
deriving DecidableEq

/-- A projected segment in view units. -/
structure Seg where
  startUnit : ℚ
  endUnit : ℚ
  label : String
deriving DecidableEq

/-- The view mode selector. -/
inductive View where
  | hour
  | week
  | month
deriving DecidableEq

/-- The preset options offered by the UI, one constructor per preset
string; `hours n` stands for the strings "4 Hours" .. "24 Hours" whose
leading number the source extracts with a regex. -/
inductive Preset where
  | hours (n : ℕ)
  | workWeek
  | fullWeek
  | days7
  | days14
  | fullMonth
deriving DecidableEq

/-- Model of the regex test /Work/i on the preset string: among the UI
presets only "Work Week" matches. -/
def isWorkPreset : Preset → Bool
  | .workWeek => true
  | _ => false

/-- Intersection-based projection, first variant (lines 644 to 710 of
the source).  The anchor argument is the timestamp of the Date passed
in (hourViewDate for hour view, anchorDate otherwise). -/
def projectTaskToView (t : Task) (v : View) (p : Preset) (anchor : ℚ) : Option Seg :=
  match v with
  | .hour =>
    let dayStart := msFloorDay anchor
    let dayEnd := dayStart + 24 * hourMs
    let s := max t.startMs dayStart
    let e := min t.endMs dayEnd
    if e ≤ s then none
    else
      let startUnit := (s - dayStart) / hourMs
      some ⟨startUnit, max (startUnit + 5 / 60) ((e - dayStart) / hourMs), t.title⟩
  | .week =>
    let ws0 := msFloorDay anchor
    let ws :=
      if isWorkPreset p then ws0 - (((jsGetDay ws0 + 6) % 7 : ℤ) : ℚ) * dayMs
      else ws0 - ((jsGetDay ws0 : ℤ) : ℚ) * dayMs
    let dayCount : ℚ := if isWorkPreset p then 5 else 7
    let we := ws + dayCount * dayMs
    let s := max t.startMs ws
    let e := min t.endMs we
    if e ≤ s then none
    else
      let startUnit := (s - ws) / dayMs
      some ⟨startUnit, max (startUnit + (1 / 2) / 24) ((e - ws) / dayMs), t.title⟩
  | .month =>
    let ms := jsMakeDate (jsGetFullYear anchor) (jsGetMonth anchor) 1
    let me := jsMakeDate (jsGetFullYear anchor) (jsGetMonth anchor + 1) 1
    let s := max t.startMs ms
    let e := min t.endMs me
    if e ≤ s then none
    else
      let startUnit := (s - ms) / dayMs
      some ⟨startUnit, max (startUnit + (1 / 2) / 24) ((e - ms) / dayMs), t.title⟩

/-- Clock-field based projection, second variant (lines 1515 to 1543 of
the source). -/
def projectTaskToView2 (t : Task) (v : View) (p : Preset) (anchor : ℚ) : Option Seg :=
  match v with
  | .hour =>
    let startH : ℚ := (jsGetHours t.startMs : ℤ) + ((jsGetMinutes t.startMs : ℤ) : ℚ) / 60
    let endH : ℚ := (jsGetHours t.endMs : ℤ) + ((jsGetMinutes t.endMs : ℤ) : ℚ) / 60
    some ⟨startH, max (startH + 5 / 100) endH, t.title⟩
  | .week =>
    let monIdx := (jsGetDay t.startMs + 6) % 7
    let dayIdx : ℤ := if isWorkPreset p then monIdx else jsGetDay t.startMs
    let dayCount : ℤ := if isWorkPreset p then 5 else 7
    if dayIdx < 0 ∨ dayCount ≤ dayIdx then none
    else
      let startUnit : ℚ :=
        (dayIdx : ℚ) + (((jsGetHours t.startMs : ℤ) : ℚ) + ((jsGetMinutes t.startMs : ℤ) : ℚ) / 60) / 24
      some ⟨startUnit,
            min (dayCount : ℚ) ((dayIdx : ℚ) + max (1 / 24) ((t.endMs - t.startMs) / 86400000)),
            t.title⟩
  | .month =>
    let dim := daysInMonth anchor
    let sDay : ℤ := clampZ (jsGetDate t.startMs) 1 dim - 1
    let eDay : ℤ := clampZ (jsGetDate t.endMs) 1 dim - 1
    let sFrac : ℚ := (((jsGetHours t.startMs : ℤ) : ℚ) + ((jsGetMinutes t.startMs : ℤ) : ℚ) / 60) / 24
    let eFrac : ℚ := (((jsGetHours t.endMs : ℤ) : ℚ) + ((jsGetMinutes t.endMs : ℤ) : ℚ) / 60) / 24
    let startUnit := (sDay : ℚ) + sFrac
    some ⟨startUnit, max (startUnit + 1 / 48) ((eDay : ℚ) + eFrac), t.title⟩

/-- Visible window of a view (start ms, end ms, ms per view unit),
matching the window computed inside each branch of the first-variant
projectTaskToView. -/
def windowOf (v : View) (p : Preset) (anchor : ℚ) : ℚ × ℚ × ℚ :=
  match v with
  | .hour =>
    let dayStart := msFloorDay anchor
    (dayStart, dayStart + 24 * hourMs, hourMs)
  | .week =>
    let ws0 := msFloorDay anchor
    let ws :=
      if isWorkPreset p then ws0 - (((jsGetDay ws0 + 6) % 7 : ℤ) : ℚ) * dayMs
      else ws0 - ((jsGetDay ws0 : ℤ) : ℚ) * dayMs
    let dayCount : ℚ := if isWorkPreset p then 5 else 7
    (ws, ws + dayCount * dayMs, dayMs)
  | .month =>
    (jsMakeDate (jsGetFullYear anchor) (jsGetMonth anchor) 1,
     jsMakeDate (jsGetFullYear anchor) (jsGetMonth anchor + 1) 1,
     dayMs)

/-- Window start in ms. -/
def winStart (v : View) (p : Preset) (anchor : ℚ) : ℚ := (windowOf v p anchor).1

/-- Window end in ms. -/
def winEnd (v : View) (p : Preset) (anchor : ℚ) : ℚ := (windowOf v p anchor).2.1

/-- Milliseconds per view unit (hours in hour view, days otherwise). -/
def unitMs (v : View) (p : Preset) (anchor : ℚ) : ℚ := (windowOf v p anchor).2.2

/-- Minimum segment width in view units: 5 minutes (1/12 hour) in hour
view, 30 minutes (1/48 day) in week and month view. -/
def minWidthUnits : View → ℚ
  | .hour => 1 / 12
  | .week => 1 / 48
  | .month => 1 / 48

/-- The derived scale record of useGanttScale. -/
structure ScaleR where
  totalUnits : ℚ
  visibleUnits : ℚ
  pxPerUnit : ℚ
  contentPx : ℚ
deriving DecidableEq

/-- Viewport width used by useGanttScale:
chartScrollRef.current?.clientWidth || 1200 (absent or zero width falls
back to 1200). -/
def viewportWidth (w : Option ℚ) : ℚ :=
  match w with
  | none => 1200
  | some x => if x = 0 then 1200 else x

/-- Model of the memoized body of useGanttScale. -/
def computeScale (v : View) (p : Preset) (anchor : ℚ) (w : Option ℚ) : ScaleR :=
  let csW := viewportWidth w
  let tv : ℚ × ℚ :=
    match v with
    | .hour =>
      (24, match p with
           | .hours n => clampQ (n : ℚ) 1 24
           | _ => 24)
    | .week => if isWorkPreset p then (5, 5) else (7, 7)
    | .month =>
      let d : ℚ := (daysInMonth anchor : ℤ)
      (d, match p with
          | .days14 => 14
          | .days7 => 7
          | _ => d)
  let pxPerUnit := csW / max 1 tv.2
  { totalUnits := tv.1, visibleUnits := tv.2, pxPerUnit := pxPerUnit,
    contentPx := pxPerUnit * tv.1 }

/-- Model of segToPixels: (leftPx, widthPx, label); null segment or null
scale yield zeroes without error. -/
def segToPixels (seg : Option Seg) (scale : Option ScaleR) : ℤ × ℤ × String :=
  match seg, scale with
  | some s, some sc =>
    (round (s.startUnit * sc.pxPerUnit),
     max 4 (round ((s.endUnit - s.startUnit) * sc.pxPerUnit)),
     s.label)
  | s?, _ =>
    (0, 0, match s? with
           | some s => s.label
           | none => "")

/-- Model of snapPx: pixels to view units, round to the nearest multiple
of snapUnits, back to pixels; with falsy snapUnits just Math.round. -/
def snapPx (pxPerUnit snapUnits px : ℚ) : ℤ :=
  if snapUnits = 0 then round px
  else
    let units := px / pxPerUnit
    let snappedUnits : ℚ := ((round (units / snapUnits) : ℤ) : ℚ) * snapUnits
    round (snappedUnits * pxPerUnit)

/-- Epsilon tolerance of assignLanes (1e-9). -/
def laneEps : ℚ := 1 / 1000000000

/-- Model of laneEnds.findIndex(end => end <= startUnit + 1e-9):
index of the first lane whose end is at most s + eps. -/
def findLane (s : ℚ) : List ℚ → Option ℕ
  | [] => none
  | e :: es => if e ≤ s + laneEps then some 0 else (findLane s es).map (· + 1)

/-- One iteration of the assignLanes loop on the laneEnds state: returns
the updated lane ends and the chosen lane index. -/
def assignStep (maxLanes : ℕ) (st : List ℚ) (g : Seg) : List ℚ × ℕ :=
  match findLane g.startUnit st with
  | some i => (st.set i g.endUnit, i)
  | none =>
    if st.length < maxLanes then (st ++ [g.endUnit], st.length)
    else (st.set (maxLanes - 1) (max (st.getD (maxLanes - 1) 0) g.endUnit), maxLanes - 1)

/-- The assignLanes loop over the sorted items. -/
def assignGo (maxLanes : ℕ) : List (Task × Seg) → List ℚ → List (Task × Seg × ℕ) × List ℚ
  | [], st => ([], st)
  | it :: rest, st =>
    let r1 := assignStep maxLanes st it.2
    let r2 := assignGo maxLanes rest r1.1
    ((it.1, it.2, r1.2) :: r2.1, r2.2)

/-- Comparator of the sort in assignLanes:
(a, b) => a.seg.startUnit - b.seg.startUnit || a.seg.endUnit - b.seg.endUnit,
read as a total preorder. -/
def segLE (a b : Task × Seg) : Prop :=
  a.2.startUnit < b.2.startUnit ∨
    (a.2.startUnit = b.2.startUnit ∧ a.2.endUnit ≤ b.2.endUnit)

instance : DecidableRel segLE := fun a b => by unfold segLE; infer_instance

instance : IsTotal (Task × Seg) segLE := by
  constructor
  intro a b
  rcases lt_trichotomy a.2.startUnit b.2.startUnit with h | h | h
  · exact Or.inl (Or.inl h)
  · rcases le_total a.2.endUnit b.2.endUnit with h2 | h2
    · exact Or.inl (Or.inr ⟨h, h2⟩)
    · exact Or.inr (Or.inr ⟨h.symm, h2⟩)
  · exact Or.inr (Or.inl h)

instance : IsTrans (Task × Seg) segLE := by
  constructor
  intro a b c hab hbc
  rcases hab with h1 | ⟨h1, h1e⟩ <;> rcases hbc with h2 | ⟨h2, h2e⟩
  · exact Or.inl (h1.trans h2)
  · exact Or.inl (h2 ▸ h1)
  · exact Or.inl (h1 ▸ h2)
  · exact Or.inr ⟨h1.trans h2, h1e.trans h2e⟩

/-- Model of assignLanes: sort by (startUnit, endUnit), place greedily,
return placed items with lanes and laneCount = max(1, open lanes). -/
def assignLanes (items : List (Task × Seg)) (maxLanes : ℕ) :
    List (Task × Seg × ℕ) × ℕ :=
  let sorted := List.insertionSort segLE items
  let r := assignGo maxLanes sorted []
  (r.1, max 1 r.2.length)

/-- The placed items of assignLanes. -/
def placedOf (items : List (Task × Seg)) (maxLanes : ℕ) : List (Task × Seg × ℕ) :=
  (assignLanes items maxLanes).1

/-- Membership of the instant t in the [startUnit, endUnit) interval of
an input item. -/
def segHasB (t : ℚ) (it : Task × Seg) : Bool :=
  decide (it.2.startUnit ≤ t ∧ t < it.2.endUnit)

/-- Membership of the instant t in the [startUnit, endUnit) interval of
a placed item. -/
def placedHasB (t : ℚ) (q : Task × Seg × ℕ) : Bool :=
  decide (q.2.1.startUnit ≤ t ∧ t < q.2.1.endUnit)

/-- Number of input segments whose [startUnit, endUnit) interval
contains the instant t. -/
def depthOf (items : List (Task × Seg)) (t : ℚ) : ℕ :=
  items.countP (segHasB t)

/-- At every instant at most m segments are simultaneously present. -/
def depthBound (items : List (Task × Seg)) (m : ℕ) : Prop :=
  ∀ t : ℚ, depthOf items t ≤ m

/-- Two placed items are compatible when equal lanes force their
[startUnit, endUnit) intervals to overlap by at most laneEps. -/
def okPair (a b : Task × Seg × ℕ) : Prop :=
  a.2.2 = b.2.2 →
    ¬ (max a.2.1.startUnit b.2.1.startUnit + laneEps < min a.2.1.endUnit b.2.1.endUnit)

instance : DecidableRel okPair := fun a b => by unfold okPair; infer_instance

/-- A captured bar rectangle in viewport coordinates. -/
structure Rect where
  left : ℚ
  top : ℚ
  right : ℚ
  bottom : ℚ
deriving DecidableEq

/-- Containment test of pickBarAt:
clientX >= left && clientX <= right && clientY >= top && clientY <= bottom. -/
def rectContains (r : Rect) (x y : ℚ) : Bool :=
  decide (r.left ≤ x) && decide (x ≤ r.right) && decide (r.top ≤ y) && decide (y ≤ r.bottom)

/-- Vertical center cy = top + height / 2. -/
def rectCenterY (r : Rect) : ℚ := r.top + (r.bottom - r.top) / 2

/-- Vertical distance dy = |y - cy|. -/
def rectDy (r : Rect) (y : ℚ) : ℚ := |y - rectCenterY r|

/-- The dy < bestDy test of pickBarAt; bestDy is infinite while no best
match is held, so any candidate passes then. -/
def betterThan (y : ℚ) (r : Rect) (best : Option (String × Rect)) : Bool :=
  match best with
  | none => true
  | some b => decide (rectDy r y < rectDy b.2 y)

/-- The scan of pickBarAt over the geometry map (insertion order), with
the current best match as accumulator; a candidate replaces the best
only when it contains the pointer and is strictly closer. -/
def pickGo (x y : ℚ) : List (String × Rect) → Option (String × Rect) → Option (String × Rect)
  | [], best => best
  | (i, r) :: rest, best =>
    if rectContains r x y && betterThan y r best then pickGo x y rest (some (i, r))
    else pickGo x y rest best

/-- Model of pickBarAt(clientX, clientY) over the captured geometry. -/
def pickBarAt (x y : ℚ) (geom : List (String × Rect)) : Option (String × Rect) :=
  pickGo x y geom none

/-- Membership of the pointer in a captured entry. -/
def containsAt (x y : ℚ) (e : String × Rect) : Prop := rectContains e.2 x y = true

instance (x y : ℚ) : DecidablePred (containsAt x y) := fun e => by
  unfold containsAt; infer_instance

/-- Drag modes of the pointer state machine. -/
inductive DragMode where
  | move
  | resizeL
  | resizeR
deriving DecidableEq

/-- The drag state captured at pointer-down (dragRef.current), with the
current left/width of the dragged element in pixels. -/
structure DragState where
  mode : DragMode
  leftPx : ℚ
  widthPx : ℚ
  taskId : String
deriving DecidableEq

/-- The semantic change record passed to onTasksChange. -/
structure ChangeRec where
  startUnit : ℚ
  durationU : ℚ
  mode : DragMode
  snapU : ℚ
deriving DecidableEq

/-- Model of the onUp handler of useBarDrag (lines 861 to 875): returns
the list of emitted (taskId, change) callback invocations, the internal
task list after the setInternalTasks update, and the drag state after
the handler (always cleared). -/
def onUp (drag : Option DragState) (scale : Option ScaleR) (snapUnits : ℚ)
    (tasks : List Task) :
    List (String × ChangeRec) × List Task × Option DragState :=
  match drag, scale with
  | some ds, some sc =>
    ([(ds.taskId,
       { startUnit := ds.leftPx / sc.pxPerUnit,
         durationU := max (1 / 10) (ds.widthPx / sc.pxPerUnit),
         mode := ds.mode,
         snapU := snapUnits })],
     tasks.map (fun t => if t.id = ds.taskId then t else t),
     none)
  | _, _ => ([], tasks, none)

/-- Row height base constant (BASE_ROW_PX). -/
def baseRowPx : ℚ := 40

/-- Per-row layout info as stored in the rowLayout map. -/
structure RowInfo where
  items : List (Task × Seg × ℕ)
  laneCount : ℕ
  rowHeight : ℚ
deriving DecidableEq

/-- Model of the rowLayout memo (lines 213 to 230): for each resource,
collect the tasks referencing it, project them (hour view uses
hourViewDate as anchor), assign lanes, and derive the row height. -/
def rowLayout (resources : List Resource) (tasks : List Task) (v : View) (p : Preset)
    (hourViewDate anchorDate : ℚ) (maxLanes : ℕ) (laneOffset : ℚ) :
    List (String × RowInfo) :=
  resources.map (fun r =>
    let segs := tasks.filterMap (fun t =>
      if t.resourceId = r.id then
        (projectTaskToView t v p (if v = View.hour then hourViewDate else anchorDate)).map
          (fun s => (t, s))
      else none)
    let res := assignLanes segs maxLanes
    (r.id,
     { items := res.1, laneCount := res.2,
       rowHeight := baseRowPx + ((res.2 - 1 : ℕ) : ℚ) * laneOffset }))

/-! Helper lemmas shared by the claim theorems. -/

theorem viewportWidth_pos (w : Option ℚ) (hw : ∀ x, w = some x → 0 ≤ x) :
    0 < viewportWidth w := by
  cases w with
  | none => norm_num [viewportWidth]
  | some x =>
    by_cases hx : x = 0
    · simp [viewportWidth, hx]
    · simp only [viewportWidth, if_neg hx]
      exact lt_of_le_of_ne (hw x rfl) (Ne.symm hx)

theorem assignStep_length_le (m : ℕ) (st : List ℚ) (g : Seg) (h : st.length ≤ m) :
    (assignStep m st g).1.length ≤ m := by
  unfold assignStep
  cases hf : findLane g.startUnit st with
  | some i => simpa [List.length_set] using h
  | none =>
    dsimp only
    split_ifs with hlt
    · simp only [List.length_append, List.length_cons, List.length_nil]
      omega
    · simpa [List.length_set] using h

theorem assignGo_length_le (m : ℕ) :
    ∀ (l : List (Task × Seg)) (st : List ℚ), st.length ≤ m →
      ((assignGo m l st).2).length ≤ m := by
  intro l
  induction l with
  | nil => intro st h; exact h
  | cons it rest ih =>
    intro st h
    exact ih _ (assignStep_length_le m st it.2 h)

theorem assignGo_fst_map (m : ℕ) :
    ∀ (l : List (Task × Seg)) (st : List ℚ),
      ((assignGo m l st).1).map (fun q => (q.1, q.2.1)) = l := by
  intro l
  induction l with
  | nil => intro st; rfl
  | cons it rest ih =>
    intro st
    simp only [assignGo, List.map_cons, ih]

/-- Concrete input of Scenario C: five mutually overlapping segments on
one resource. -/
def cap5Items : List (Task × Seg) :=
  [(⟨"a", "r0", "A", 0, 0⟩, ⟨0, 10, "s1"⟩),
   (⟨"a", "r0", "A", 0, 0⟩, ⟨1, 11, "s2"⟩),
   (⟨"a", "r0", "A", 0, 0⟩, ⟨2, 12, "s3"⟩),
   (⟨"a", "r0", "A", 0, 0⟩, ⟨3, 13, "s4"⟩),
   (⟨"a", "r0", "A", 0, 0⟩, ⟨4, 14, "s5"⟩)]

/-! Claim theorems. -/

/-- Claim C10 (confirmed): segToPixels is total, returns zero position
and width on a null segment or null scale, and otherwise floors the
rendered width at 4 pixels. -/
theorem segToPixels_total_min_width :
    (∀ sc : Option ScaleR, segToPixels none sc = (0, 0, "")) ∧
    (∀ s : Seg, segToPixels (some s) none = (0, 0, s.label)) ∧
    (∀ (s : Seg) (sc : ScaleR), 4 ≤ (segToPixels (some s) (some sc)).2.1) := by
  refine ⟨fun sc => ?_, fun s => rfl, fun s sc => ?_⟩
  · cases sc <;> rfl
  · exact le_max_left _ _

/-- Claim C8 (confirmed): on pointer-up with an active drag and a valid
scale, the onUp handler emits exactly one (task, change) callback
invocation carrying the semantic change record, leaves the internal
task list unchanged element for element (the setInternalTasks update is
the identity on every task), and clears the drag state; without an
active drag nothing is emitted. -/
theorem onUp_emits_once_keeps_tasks :
    ∀ (ds : DragState) (sc : ScaleR) (snap : ℚ) (tasks : List Task),
      (onUp (some ds) (some sc) snap tasks).1 =
        [(ds.taskId,
          { startUnit := ds.leftPx / sc.pxPerUnit,
            durationU := max (1 / 10) (ds.widthPx / sc.pxPerUnit),
            mode := ds.mode, snapU := snap })] ∧
      (onUp (some ds) (some sc) snap tasks).2.1 = tasks ∧
      (onUp (some ds) (some sc) snap tasks).2.2 = none ∧
      ∀ sc2 : Option ScaleR, onUp none sc2 snap tasks = ([], tasks, none) := by
  intro ds sc snap tasks
  refine ⟨rfl, ?_, rfl, fun sc2 => by cases sc2 <;> rfl⟩
  show tasks.map (fun t => if t.id = ds.taskId then t else t) = tasks
  have h : (fun t : Task => if t.id = ds.taskId then t else t) = fun t => t := by
    funext t; exact ite_self t
  rw [h, List.map_id']

/-- Claim C6 (confirmed): the computed scale satisfies
pxPerUnit = viewportWidth / max(1, visibleUnits),
contentPx = pxPerUnit * totalUnits, totalUnits is 24 in hour view,
5 or 7 in week view and days-in-month in month view, a zero or absent
viewport width falls back to the default 1200, and pxPerUnit is
positive. -/
theorem computeScale_spec :
    ∀ (v : View) (p : Preset) (a : ℚ) (w : Option ℚ),
      (∀ x, w = some x → 0 ≤ x) →
      (computeScale v p a w).pxPerUnit =
          viewportWidth w / max 1 (computeScale v p a w).visibleUnits ∧
      (computeScale v p a w).contentPx =
          (computeScale v p a w).pxPerUnit * (computeScale v p a w).totalUnits ∧
      (computeScale v p a w).totalUnits =
          (match v with
           | View.hour => (24 : ℚ)
           | View.week => if isWorkPreset p then 5 else 7
           | View.month => ((daysInMonth a : ℤ) : ℚ)) ∧
      ((w = none ∨ w = some 0) → viewportWidth w = 1200) ∧
      0 < (computeScale v p a w).pxPerUnit := by
  intro v p a w hw
  have hcw : 0 < viewportWidth w := viewportWidth_pos w hw
  have h1 : (computeScale v p a w).pxPerUnit =
      viewportWidth w / max 1 (computeScale v p a w).visibleUnits := by
    cases v <;> rfl
  refine ⟨h1, by cases v <;> rfl, ?_, ?_, ?_⟩
  · cases v with
    | hour => rfl
    | week => cases hW : isWorkPreset p <;> simp [computeScale, hW]
    | month => rfl
  · rintro (h | h) <;> subst h <;> simp [viewportWidth]
  · rw [h1]
    exact div_pos hcw (lt_of_lt_of_le zero_lt_one (le_max_left 1 _))

/-- Claim C4 (amended, corrected): every segment returned by the
intersection-based projectTaskToView satisfies the minimum width floor
of its mode: 1/12 hour (5 minutes) in hour view, 1/48 day (30 minutes)
in week and month view.  The clock-field variant violates the floor,
see the counterexample. -/
theorem floor_width_aux (su x c : ℚ) : c ≤ max (su + c) x - su := by
  have := le_max_left (su + c) x
  linarith

theorem projectTaskToView_min_width :
    ∀ (t : Task) (v : View) (p : Preset) (a : ℚ) (seg : Seg),
      projectTaskToView t v p a = some seg →
      minWidthUnits v ≤ seg.endUnit - seg.startUnit := by
  intro t v p a seg h
  cases v with
  | hour =>
    simp only [projectTaskToView] at h
    split_ifs at h with hle
    obtain rfl : _ = seg := Option.some.inj h
    rw [show minWidthUnits View.hour = 5 / 60 by norm_num [minWidthUnits]]
    exact floor_width_aux _ _ _
  | week =>
    simp only [projectTaskToView] at h
    cases hW : isWorkPreset p <;> simp only [hW, Bool.false_eq_true, if_false, if_true] at h <;>
      split_ifs at h with hle <;>
      obtain rfl : _ = seg := Option.some.inj h <;>
      rw [show minWidthUnits View.week = (1 / 2) / 24 by norm_num [minWidthUnits]] <;>
      exact floor_width_aux _ _ _
  | month =>
    simp only [projectTaskToView] at h
    split_ifs at h with hle
    obtain rfl : _ = seg := Option.some.inj h
    rw [show minWidthUnits View.month = (1 / 2) / 24 by norm_num [minWidthUnits]]
    exact floor_width_aux _ _ _

/-- Claim C4 counterexample: the clock-field variant floors hour-view
segments at 0.05 hours (3 minutes), below the claimed 1/12 hour. -/
theorem projectTaskToView_min_width_cex :
    projectTaskToView2 ⟨"t1", "r0", "T", 36000000, 36060000⟩ View.hour (Preset.hours 24) 0 =
      some ⟨10, 201 / 20, "T"⟩ ∧
    (201 / 20 : ℚ) - 10 < minWidthUnits View.hour := by
  constructor
  · norm_num [projectTaskToView2, jsGetHours, jsGetMinutes, hourMs]
  · norm_num [minWidthUnits]

/-- Claim C4 witness: a one-minute task in hour view is floored to the
5-minute minimum. -/
theorem projectTaskToView_min_width_witness :
    projectTaskToView ⟨"t1", "r0", "T", 36000000, 36060000⟩ View.hour (Preset.hours 24) 0 =
      some ⟨10, 121 / 12, "T"⟩ ∧
    minWidthUnits View.hour ≤ (121 / 12 : ℚ) - 10 :=
  ⟨by norm_num [projectTaskToView, msFloorDay, hourMs],
   projectTaskToView_min_width ⟨"t1", "r0", "T", 36000000, 36060000⟩ View.hour
     (Preset.hours 24) 0 ⟨10, 121 / 12, "T"⟩
     (by norm_num [projectTaskToView, msFloorDay, hourMs])⟩

/-- Claim C2 (confirmed): with at least one lane, assignLanes never
opens more than maxLanes lanes, drops no input segment (the placed
items are a permutation of the input), force-places a segment that fits
no lane at the cap into lane maxLanes - 1 extending that lane end to
the maximum of old end and segment end, and on five mutually
overlapping segments with maxLanes = 2 yields laneCount 2 with the 4th
and 5th segments sharing lane 1. -/
theorem assignLanes_cap_and_total :
    ∀ (items : List (Task × Seg)) (m : ℕ), 1 ≤ m →
      ((assignLanes items m).2 ≤ m ∧
       ((assignLanes items m).1.map (fun q => (q.1, q.2.1))).Perm items) ∧
      (∀ (st : List ℚ) (g : Seg), findLane g.startUnit st = none → st.length = m →
        assignStep m st g =
          (st.set (m - 1) (max (st.getD (m - 1) 0) g.endUnit), m - 1)) ∧
      ((assignLanes cap5Items 2).2 = 2 ∧
       (assignLanes cap5Items 2).1.map (fun q => q.2.2) = [0, 1, 1, 1, 1]) := by
  intro items m hm
  refine ⟨⟨?_, ?_⟩, ?_, ?_, ?_⟩
  · have hlen : ((assignGo m (List.insertionSort segLE items) []).2).length ≤ m :=
      assignGo_length_le m _ [] (by simp)
    exact max_le hm hlen
  · have h1 : (assignLanes items m).1 = (assignGo m (List.insertionSort segLE items) []).1 := rfl
    rw [h1, assignGo_fst_map]
    exact List.perm_insertionSort segLE items
  · intro st g hfind hlen
    unfold assignStep
    rw [hfind]
    dsimp only
    rw [if_neg (by omega)]
  · norm_num [assignLanes, assignGo, assignStep, findLane, laneEps, cap5Items,
      List.insertionSort, List.orderedInsert, segLE]
  · norm_num [assignLanes, assignGo, assignStep, findLane, laneEps, cap5Items,
      List.insertionSort, List.orderedInsert, segLE]

theorem div_mul_add_eq (x ws u : ℚ) (hu : u ≠ 0) : (x - ws) / u * u + ws = x := by
  field_simp

theorem max_div_mul_add_eq (a b ws u minw : ℚ) (hu : 0 < u) :
    max ((a - ws) / u + minw) ((b - ws) / u) * u + ws = max (a + minw * u) b := by
  rw [max_mul_of_nonneg _ _ hu.le]
  have h1 : ((a - ws) / u + minw) * u = a + minw * u - ws := by
    field_simp
    ring
  have h2 : (b - ws) / u * u = b - ws := by field_simp
  rw [h1, h2, max_sub_sub_right (a + minw * u) b ws, sub_add_cancel]

theorem clip_branch_spec (s0 e0 ws we u minw : ℚ) (lb : String) (hu : 0 < u) :
    ((if min e0 we ≤ max s0 ws then (none : Option Seg)
      else some ⟨(max s0 ws - ws) / u,
        max ((max s0 ws - ws) / u + minw) ((min e0 we - ws) / u), lb⟩) = none ↔
      min e0 we ≤ max s0 ws) ∧
    ∀ seg : Seg,
      (if min e0 we ≤ max s0 ws then (none : Option Seg)
       else some ⟨(max s0 ws - ws) / u,
         max ((max s0 ws - ws) / u + minw) ((min e0 we - ws) / u), lb⟩) = some seg →
      seg.startUnit * u + ws = max s0 ws ∧
      seg.endUnit * u + ws = max (max s0 ws + minw * u) (min e0 we) := by
  by_cases hc : min e0 we ≤ max s0 ws
  · rw [if_pos hc]
    exact ⟨⟨fun _ => hc, fun _ => rfl⟩, fun seg hseg => absurd hseg (by simp)⟩
  · rw [if_neg hc]
    refine ⟨⟨fun h => absurd h (by simp), fun h => absurd h hc⟩, ?_⟩
    intro seg hseg
    obtain rfl : _ = seg := Option.some.inj hseg
    exact ⟨div_mul_add_eq _ _ _ hu.ne', max_div_mul_add_eq _ _ _ _ _ hu⟩

/-- Claim C1 (amended, corrected): for the intersection-based
projectTaskToView, the result is null exactly when the intersection of
the task interval with the visible window has no interior, and
otherwise startUnit maps back through the unit-to-time function to the
clipped intersection start, while endUnit maps back to the larger of
the clipped intersection end and the intersection start plus the
minimum-width floor of the mode. -/
theorem projectTaskToView_matches_window_intersection :
    ∀ (t : Task) (v : View) (p : Preset) (a : ℚ),
      (projectTaskToView t v p a = none ↔
        min t.endMs (winEnd v p a) ≤ max t.startMs (winStart v p a)) ∧
      ∀ seg : Seg, projectTaskToView t v p a = some seg →
        seg.startUnit * unitMs v p a + winStart v p a = max t.startMs (winStart v p a) ∧
        seg.endUnit * unitMs v p a + winStart v p a =
          max (max t.startMs (winStart v p a) + minWidthUnits v * unitMs v p a)
              (min t.endMs (winEnd v p a)) := by
  intro t v p a
  cases v with
  | hour =>
    rw [show minWidthUnits View.hour = 5 / 60 from by norm_num [minWidthUnits]]
    simp only [projectTaskToView, winStart, winEnd, unitMs, windowOf]
    exact clip_branch_spec t.startMs t.endMs (msFloorDay a) (msFloorDay a + 24 * hourMs)
      hourMs (5 / 60) t.title (by norm_num [hourMs])
  | week =>
    rw [show minWidthUnits View.week = (1 / 2) / 24 from by norm_num [minWidthUnits]]
    cases hW : isWorkPreset p <;>
      simp only [projectTaskToView, winStart, winEnd, unitMs, windowOf, hW,
        Bool.false_eq_true, eq_self_iff_true, if_false, if_true] <;>
      exact clip_branch_spec _ _ _ _ dayMs ((1 / 2) / 24) t.title (by norm_num [dayMs])
  | month =>
    rw [show minWidthUnits View.month = (1 / 2) / 24 from by norm_num [minWidthUnits]]
    simp only [projectTaskToView, winStart, winEnd, unitMs, windowOf]
    exact clip_branch_spec _ _ _ _ dayMs ((1 / 2) / 24) t.title (by norm_num [dayMs])

/-- Claim C1 counterexample: three concrete refutations of the claim as
stated.  First, the minimum-width floor makes the mapped-back end of a
one-minute task differ from the clipped intersection end.  Second, a
task touching the window start has a nonempty (single point)
intersection with the closed window yet projects to null.  Third, the
clock-field variant returns a segment for a task wholly outside the
window, computed from raw clock fields alone. -/
theorem projectTaskToView_intersection_claim_cex :
    (projectTaskToView ⟨"t1", "r0", "T", 36000000, 36060000⟩ View.hour (Preset.hours 24) 0 =
        some ⟨10, 121 / 12, "T"⟩ ∧
      (121 / 12 : ℚ) * unitMs View.hour (Preset.hours 24) 0 +
          winStart View.hour (Preset.hours 24) 0 ≠
        min 36060000 (winEnd View.hour (Preset.hours 24) 0)) ∧
    (projectTaskToView ⟨"t2", "r0", "T", -18000000, 0⟩ View.hour (Preset.hours 24) 0 = none ∧
      max (-18000000 : ℚ) (winStart View.hour (Preset.hours 24) 0) =
        min 0 (winEnd View.hour (Preset.hours 24) 0)) ∧
    (projectTaskToView2 ⟨"t3", "r0", "T", 381600000, 385200000⟩ View.hour (Preset.hours 24) 0 =
        some ⟨10, 11, "T"⟩ ∧
      min (385200000 : ℚ) (winEnd View.hour (Preset.hours 24) 0) ≤
        max 381600000 (winStart View.hour (Preset.hours 24) 0)) := by
  refine ⟨⟨?_, ?_⟩, ⟨?_, ?_⟩, ⟨?_, ?_⟩⟩
  · norm_num [projectTaskToView, msFloorDay, hourMs]
  · norm_num [unitMs, winStart, winEnd, windowOf, msFloorDay, hourMs]
  · norm_num [projectTaskToView, msFloorDay, hourMs]
  · norm_num [winStart, winEnd, windowOf, msFloorDay, hourMs]
  · norm_num [projectTaskToView2, jsGetHours, jsGetMinutes, hourMs]
  · norm_num [winStart, winEnd, windowOf, msFloorDay, hourMs]

/-- Claim C1 witness: the amended theorem instantiated on a one-minute
hour-view task. -/
theorem projectTaskToView_matches_window_intersection_witness :
    (projectTaskToView ⟨"t1", "r0", "T", 36000000, 36060000⟩ View.hour (Preset.hours 24) 0 =
        none ↔
      min (36060000 : ℚ) (winEnd View.hour (Preset.hours 24) 0) ≤
        max 36000000 (winStart View.hour (Preset.hours 24) 0)) ∧
    ((10 : ℚ) * unitMs View.hour (Preset.hours 24) 0 + winStart View.hour (Preset.hours 24) 0 =
      max 36000000 (winStart View.hour (Preset.hours 24) 0)) ∧
    ((121 / 12 : ℚ) * unitMs View.hour (Preset.hours 24) 0 +
        winStart View.hour (Preset.hours 24) 0 =
      max (max 36000000 (winStart View.hour (Preset.hours 24) 0) +
           minWidthUnits View.hour * unitMs View.hour (Preset.hours 24) 0)
          (min 36060000 (winEnd View.hour (Preset.hours 24) 0))) := by
  have h := projectTaskToView_matches_window_intersection
    ⟨"t1", "r0", "T", 36000000, 36060000⟩ View.hour (Preset.hours 24) 0
  have hs := h.2 ⟨10, 121 / 12, "T"⟩ (by norm_num [projectTaskToView, msFloorDay, hourMs])
  exact ⟨h.1, hs.1, hs.2⟩

/-- Claim C2 witness: the theorem instantiated on Scenario C. -/
theorem assignLanes_cap_and_total_witness :
    (1 : ℕ) ≤ 2 ∧ (assignLanes cap5Items 2).2 ≤ 2 ∧
    (assignLanes cap5Items 2).1.map (fun q => q.2.2) = [0, 1, 1, 1, 1] :=
  ⟨by decide, (assignLanes_cap_and_total cap5Items 2 (by decide)).1.1,
   ((assignLanes_cap_and_total cap5Items 2 (by decide)).2.2).2⟩

theorem round_div_mul_eq (c : ℚ) (hc0 : 0 < c) (hc1 : c ≤ 1) (q : ℤ) :
    round (((round ((q : ℚ) / c) : ℤ) : ℚ) * c) = q := by
  rcases eq_or_lt_of_le hc1 with h1 | h1
  · subst h1
    simp
  · have hjle : ((round ((q : ℚ) / c) : ℤ) : ℚ) ≤ (q : ℚ) / c + 1 / 2 := by
      rw [round_eq]
      exact_mod_cast Int.floor_le _
    have hjgt : (q : ℚ) / c + 1 / 2 < ((round ((q : ℚ) / c) : ℤ) : ℚ) + 1 := by
      rw [round_eq]
      exact Int.lt_floor_add_one _
    have hub : ((round ((q : ℚ) / c) : ℤ) : ℚ) * c ≤ (q : ℚ) + c / 2 := by
      have h2 := mul_le_mul_of_nonneg_right hjle hc0.le
      have h3 : ((q : ℚ) / c + 1 / 2) * c = (q : ℚ) + c / 2 := by
        field_simp
        ring
      linarith
    have hlb : (q : ℚ) - c / 2 < ((round ((q : ℚ) / c) : ℤ) : ℚ) * c := by
      have h2 : (q : ℚ) / c - 1 / 2 < ((round ((q : ℚ) / c) : ℤ) : ℚ) := by linarith
      have h3 := mul_lt_mul_of_pos_right h2 hc0
      have h4 : ((q : ℚ) / c - 1 / 2) * c = (q : ℚ) - c / 2 := by
        field_simp
        ring
      linarith
    rw [round_eq, Int.floor_eq_iff]
    constructor
    · linarith
    · linarith

theorem round_mul_div_eq (c : ℚ) (hc : 1 < c) (k : ℤ) :
    round (((round ((k : ℚ) * c) : ℤ) : ℚ) / c) = k := by
  have hc0 : (0 : ℚ) < c := lt_trans zero_lt_one hc
  have hqle : ((round ((k : ℚ) * c) : ℤ) : ℚ) ≤ (k : ℚ) * c + 1 / 2 := by
    rw [round_eq]
    have h1 := Int.floor_le ((k : ℚ) * c + 1 / 2)
    exact_mod_cast h1
  have hqgt : (k : ℚ) * c + 1 / 2 < ((round ((k : ℚ) * c) : ℤ) : ℚ) + 1 := by
    rw [round_eq]
    exact Int.lt_floor_add_one _
  rw [round_eq, Int.floor_eq_iff]
  constructor
  · have step : (k : ℚ) - 1 / 2 ≤ ((round ((k : ℚ) * c) : ℤ) : ℚ) / c := by
      rw [le_div_iff₀ hc0]
      have e1 : ((k : ℚ) - 1 / 2) * c = (k : ℚ) * c - c / 2 := by ring
      rw [e1]
      linarith
    linarith
  · have step : ((round ((k : ℚ) * c) : ℤ) : ℚ) / c < (k : ℚ) + 1 / 2 := by
      rw [div_lt_iff₀ hc0]
      have e1 : ((k : ℚ) + 1 / 2) * c = (k : ℚ) * c + c / 2 := by ring
      rw [e1]
      linarith
    linarith

/-- Claim C7 (confirmed): snapPx is idempotent for any positive
pxPerUnit and snap unit: snapping an already snapped pixel position
returns the same position. -/
theorem snapPx_idempotent :
    ∀ (ppu su px : ℚ), 0 < ppu → 0 < su →
      snapPx ppu su ((snapPx ppu su px : ℤ) : ℚ) = snapPx ppu su px := by
  intro ppu su px hppu hsu
  have hsu0 : su ≠ 0 := hsu.ne'
  have hc0 : 0 < su * ppu := mul_pos hsu hppu
  have key : ∀ y : ℚ,
      snapPx ppu su y = round (((round (y / (su * ppu)) : ℤ) : ℚ) * (su * ppu)) := by
    intro y
    simp only [snapPx, if_neg hsu0]
    rw [div_div, mul_comm ppu su, mul_assoc]
  simp only [key]
  generalize (su * ppu) = c at hc0
  generalize round (px / c) = k
  rcases le_or_lt c 1 with hle | hgt
  · exact round_div_mul_eq c hc0 hle (round ((k : ℚ) * c))
  · rw [round_mul_div_eq c hgt k]

theorem pickGo_ne_none (x y : ℚ) :
    ∀ (l : List (String × Rect)) (b : String × Rect), pickGo x y l (some b) ≠ none := by
  intro l
  induction l with
  | nil => intro b h; exact Option.noConfusion h
  | cons hd rest ih =>
    rcases hd with ⟨i, r⟩
    intro b
    rw [pickGo]
    split
    · exact ih (i, r)
    · exact ih b

theorem pickGo_none_iff (x y : ℚ) :
    ∀ (l : List (String × Rect)) (best : Option (String × Rect)),
      pickGo x y l best = none ↔ best = none ∧ ∀ e ∈ l, ¬ containsAt x y e := by
  intro l
  induction l with
  | nil =>
    intro best
    simp [pickGo]
  | cons hd rest ih =>
    rcases hd with ⟨i, r⟩
    intro best
    rw [pickGo]
    by_cases hcond : (rectContains r x y && betterThan y r best) = true
    · rw [if_pos hcond]
      have hcont : containsAt x y (i, r) := by
        simp only [Bool.and_eq_true] at hcond
        exact hcond.1
      refine iff_of_false (pickGo_ne_none x y rest (i, r)) ?_
      rintro ⟨hb, hall⟩
      exact hall (i, r) (List.mem_cons_self _ _) hcont
    · rw [if_neg hcond, ih best]
      constructor
      · rintro ⟨hb, hall⟩
        refine ⟨hb, ?_⟩
        intro e he
        rcases List.mem_cons.mp he with rfl | he2
        · subst hb
          intro hc
          exact hcond (by simp [betterThan, Bool.and_eq_true]; exact hc)
        · exact hall e he2
      · rintro ⟨hb, hall⟩
        exact ⟨hb, fun e he => hall e (List.mem_cons_of_mem _ he)⟩

theorem pickGo_some_spec (x y : ℚ) :
    ∀ (l : List (String × Rect)) (best : Option (String × Rect)) (b : String × Rect),
      pickGo x y l best = some b →
      (best = some b ∧ ∀ e ∈ l, containsAt x y e → rectDy b.2 y ≤ rectDy e.2 y) ∨
      (containsAt x y b ∧
       (∀ o : String × Rect, best = some o → rectDy b.2 y < rectDy o.2 y) ∧
       ∃ l₁ l₂, l = l₁ ++ b :: l₂ ∧
         (∀ e ∈ l₁, containsAt x y e → rectDy b.2 y < rectDy e.2 y) ∧
         (∀ e ∈ l₂, containsAt x y e → rectDy b.2 y ≤ rectDy e.2 y)) := by
  intro l
  induction l with
  | nil =>
    intro best b h
    left
    exact ⟨h, by simp⟩
  | cons hd rest ih =>
    rcases hd with ⟨i, r⟩
    intro best b h
    rw [pickGo] at h
    cases best with
    | none =>
      by_cases hcont : rectContains r x y = true
      · rw [if_pos (by simp [betterThan, hcont])] at h
        rcases ih (some (i, r)) b h with ⟨heq, hall⟩ | ⟨hc, hlt, l₁, l₂, heq, h1, h2⟩
        · obtain rfl : (i, r) = b := Option.some.inj heq
          right
          exact ⟨hcont, fun o ho => absurd ho (by simp), [], rest, rfl, by simp, hall⟩
        · right
          refine ⟨hc, fun o ho => absurd ho (by simp), (i, r) :: l₁, l₂, by rw [heq]; rfl, ?_, h2⟩
          intro e he hce
          rcases List.mem_cons.mp he with rfl | he2
          · exact hlt (i, r) rfl
          · exact h1 e he2 hce
      · rw [if_neg (by simp [hcont])] at h
        rcases ih none b h with ⟨heq, hall⟩ | ⟨hc, hlt, l₁, l₂, heq, h1, h2⟩
        · exact absurd heq (by simp)
        · right
          refine ⟨hc, fun o ho => absurd ho (by simp), (i, r) :: l₁, l₂, by rw [heq]; rfl, ?_, h2⟩
          intro e he hce
          rcases List.mem_cons.mp he with rfl | he2
          · exact absurd hce hcont
          · exact h1 e he2 hce
    | some o =>
      by_cases hcont : rectContains r x y = true
      · by_cases hdy : rectDy r y < rectDy o.2 y
        · rw [if_pos (by simp [betterThan, hcont, hdy])] at h
          rcases ih (some (i, r)) b h with ⟨heq, hall⟩ | ⟨hc, hlt, l₁, l₂, heq, h1, h2⟩
          · obtain rfl : (i, r) = b := Option.some.inj heq
            right
            refine ⟨hcont, ?_, [], rest, rfl, by simp, hall⟩
            intro o2 ho2
            obtain rfl : o = o2 := Option.some.inj ho2
            exact hdy
          · right
            refine ⟨hc, ?_, (i, r) :: l₁, l₂, by rw [heq]; rfl, ?_, h2⟩
            · intro o2 ho2
              obtain rfl : o = o2 := Option.some.inj ho2
              exact lt_trans (hlt (i, r) rfl) hdy
            · intro e he hce
              rcases List.mem_cons.mp he with rfl | he2
              · exact hlt (i, r) rfl
              · exact h1 e he2 hce
        · rw [if_neg (by simp [betterThan, hdy])] at h
          rcases ih (some o) b h with ⟨heq, hall⟩ | ⟨hc, hlt, l₁, l₂, heq, h1, h2⟩
          · obtain rfl : o = b := Option.some.inj heq
            left
            refine ⟨rfl, ?_⟩
            intro e he hce
            rcases List.mem_cons.mp he with rfl | he2
            · exact le_of_not_lt hdy
            · exact hall e he2 hce
          · right
            refine ⟨hc, hlt, (i, r) :: l₁, l₂, by rw [heq]; rfl, ?_, h2⟩
            intro e he hce
            rcases List.mem_cons.mp he with rfl | he2
            · exact lt_of_lt_of_le (hlt o rfl) (le_of_not_lt hdy)
            · exact h1 e he2 hce
      · rw [if_neg (by simp [hcont])] at h
        rcases ih (some o) b h with ⟨heq, hall⟩ | ⟨hc, hlt, l₁, l₂, heq, h1, h2⟩
        · obtain rfl : o = b := Option.some.inj heq
          left
          refine ⟨rfl, ?_⟩
          intro e he hce
          rcases List.mem_cons.mp he with rfl | he2
          · exact absurd hce hcont
          · exact hall e he2 hce
        · right
          refine ⟨hc, hlt, (i, r) :: l₁, l₂, by rw [heq]; rfl, ?_, h2⟩
          intro e he hce
          rcases List.mem_cons.mp he with rfl | he2
          · exact absurd hce hcont
          · exact h1 e he2 hce

/-- Claim C5 (confirmed): pickBarAt returns null exactly when no
captured rectangle contains the pointer, and otherwise returns a
containing bar whose vertical center distance is minimal among all
containing rectangles, with exact ties resolved in favor of the first
bar encountered in the scan (every containing bar strictly earlier in
the list is strictly farther). -/
theorem pickBarAt_nearest_center :
    ∀ (x y : ℚ) (geom : List (String × Rect)),
      (pickBarAt x y geom = none ↔ ∀ e ∈ geom, ¬ containsAt x y e) ∧
      ∀ b, pickBarAt x y geom = some b →
        containsAt x y b ∧
        (∀ e ∈ geom, containsAt x y e → rectDy b.2 y ≤ rectDy e.2 y) ∧
        ∃ l₁ l₂, geom = l₁ ++ b :: l₂ ∧
          ∀ e ∈ l₁, containsAt x y e → rectDy b.2 y < rectDy e.2 y := by
  intro x y geom
  constructor
  · rw [pickBarAt, pickGo_none_iff]
    simp
  · intro b h
    rcases pickGo_some_spec x y geom none b h with ⟨heq, _⟩ | ⟨hc, _, l₁, l₂, heq, h1, h2⟩
    · exact absurd heq (by simp)
    · refine ⟨hc, ?_, l₁, l₂, heq, h1⟩
      intro e he hce
      rw [heq] at he
      rcases List.mem_append.mp he with he1 | he2
      · exact le_of_lt (h1 e he1 hce)
      · rcases List.mem_cons.mp he2 with rfl | he3
        · exact le_refl _
        · exact h2 e he3 hce

/-- Concrete geometry for the pick witness: two overlapping bars, the
pointer inside both and closer to the center of the second. -/
def pickGeomW : List (String × Rect) :=
  [("b1", ⟨0, 0, 100, 40⟩), ("b2", ⟨0, 10, 100, 50⟩)]

/-- Claim C5 witness: the theorem instantiated on two overlapping
rectangles. -/
theorem pickBarAt_nearest_center_witness :
    pickBarAt 50 28 pickGeomW = some ("b2", ⟨0, 10, 100, 50⟩) ∧
    containsAt 50 28 ("b2", (⟨0, 10, 100, 50⟩ : Rect)) ∧
    rectDy (⟨0, 10, 100, 50⟩ : Rect) 28 ≤ rectDy (⟨0, 0, 100, 40⟩ : Rect) 28 := by
  have hpick : pickBarAt 50 28 pickGeomW = some ("b2", ⟨0, 10, 100, 50⟩) := by
    norm_num [pickBarAt, pickGo, betterThan, rectContains, rectDy, rectCenterY, pickGeomW]
  have h := (pickBarAt_nearest_center 50 28 pickGeomW).2 _ hpick
  exact ⟨hpick, h.1,
    h.2.1 ("b1", ⟨0, 0, 100, 40⟩) (by simp [pickGeomW])
      (by norm_num [containsAt, rectContains])⟩

theorem filterMap_filter_ne {α : Type} (f : Task → Option α) (t : Task) (hft : f t = none) :
    ∀ l : List Task, (l.filter (fun u => u ≠ t)).filterMap f = l.filterMap f := by
  intro l
  induction l with
  | nil => rfl
  | cons u l ih =>
    by_cases hu : u = t
    · subst hu
      rw [List.filter_cons, if_neg (by simp), List.filterMap_cons, hft]
      exact ih
    · rw [List.filter_cons, if_pos (by simp [hu]), List.filterMap_cons, List.filterMap_cons]
      rw [ih]

/-- Claim C9 (confirmed): a task whose resourceId matches no resource
is placed in no row of the row layout, and removing all its copies from
the task list leaves the layout of every row unchanged. -/
theorem rowLayout_drops_unmatched :
    ∀ (resources : List Resource) (tasks : List Task) (v : View) (p : Preset)
      (hvd ad : ℚ) (m : ℕ) (lo : ℚ) (t : Task),
      t ∈ tasks → (∀ r ∈ resources, r.id ≠ t.resourceId) →
      (∀ pr ∈ rowLayout resources tasks v p hvd ad m lo,
        ∀ it ∈ pr.2.items, it.1 ≠ t) ∧
      rowLayout resources (tasks.filter (fun u => u ≠ t)) v p hvd ad m lo =
        rowLayout resources tasks v p hvd ad m lo := by
  intro resources tasks v p hvd ad m lo t ht hr
  constructor
  · intro pr hpr it hit
    rw [rowLayout, List.mem_map] at hpr
    obtain ⟨r, hrmem, rfl⟩ := hpr
    dsimp only at hit
    have h2 : (it.1, it.2.1) ∈
        (assignLanes (tasks.filterMap (fun u =>
          if u.resourceId = r.id then
            (projectTaskToView u v p (if v = View.hour then hvd else ad)).map
              (fun s => (u, s))
          else none)) m).1.map (fun q => (q.1, q.2.1)) :=
      List.mem_map_of_mem _ hit
    rw [show ∀ ss : List (Task × Seg), (assignLanes ss m).1 =
        (assignGo m (List.insertionSort segLE ss) []).1 from fun ss => rfl,
      assignGo_fst_map] at h2
    have h1 : (it.1, it.2.1) ∈ tasks.filterMap (fun u =>
        if u.resourceId = r.id then
          (projectTaskToView u v p (if v = View.hour then hvd else ad)).map
            (fun s => (u, s))
        else none) :=
      (List.perm_insertionSort segLE _).subset h2
    rw [List.mem_filterMap] at h1
    obtain ⟨u, hu, hfu⟩ := h1
    by_cases hid : u.resourceId = r.id
    · rw [if_pos hid] at hfu
      rw [Option.map_eq_some'] at hfu
      obtain ⟨s, hps, heq⟩ := hfu
      have hu1 : u = it.1 := congrArg Prod.fst heq
      intro hct
      exact hr r hrmem (by rw [← hct, ← hu1]; exact hid.symm)
    · rw [if_neg hid] at hfu
      exact absurd hfu (by simp)
  · rw [rowLayout, rowLayout]
    apply List.map_congr_left
    intro r hrmem
    dsimp only
    have hft : (fun u : Task =>
        if u.resourceId = r.id then
          (projectTaskToView u v p (if v = View.hour then hvd else ad)).map
            (fun s => (u, s))
        else none) t = none := by
      dsimp only
      rw [if_neg (fun hc => hr r hrmem hc.symm)]
    rw [filterMap_filter_ne _ t hft tasks]

/-- Resource list for the C9 witness. -/
def resW : List Resource := [⟨"r0", "Alice"⟩]

/-- A task referencing an existing resource. -/
def taskGood : Task := ⟨"tg", "r0", "G", 36000000, 39600000⟩

/-- A task whose resourceId matches no resource. -/
def taskBad : Task := ⟨"tb", "zz", "B", 36000000, 39600000⟩

/-- Task list for the C9 witness. -/
def tasksW : List Task := [taskBad, taskGood]

/-- Claim C9 witness: the theorem instantiated on a two-task list with
one unmatched task. -/
theorem rowLayout_drops_unmatched_witness :
    taskBad ∈ tasksW ∧ ("r0" : String) ≠ taskBad.resourceId ∧
    rowLayout resW (tasksW.filter (fun u => u ≠ taskBad)) View.hour (Preset.hours 24) 0 0 10 5 =
      rowLayout resW tasksW View.hour (Preset.hours 24) 0 0 10 5 :=
  ⟨by simp [tasksW], by simp [taskBad],
   (rowLayout_drops_unmatched resW tasksW View.hour (Preset.hours 24) 0 0 10 5 taskBad
     (by simp [tasksW])
     (by
       intro r hrm
       simp only [resW, List.mem_singleton] at hrm
       subst hrm
       simp [taskBad])).2⟩

theorem laneEps_pos : (0 : ℚ) < laneEps := by norm_num [laneEps]

theorem findLane_some (s : ℚ) :
    ∀ (l : List ℚ) (i : ℕ), findLane s l = some i →
      i < l.length ∧ l.getD i 0 ≤ s + laneEps := by
  intro l
  induction l with
  | nil => intro i h; exact absurd h (by simp [findLane])
  | cons e es ih =>
    intro i h
    rw [findLane] at h
    split_ifs at h with he
    · obtain rfl : 0 = i := Option.some.inj h
      exact ⟨by simp, he⟩
    · rw [Option.map_eq_some'] at h
      obtain ⟨j, hj, rfl⟩ := h
      obtain ⟨hjl, hjle⟩ := ih j hj
      exact ⟨by simpa using Nat.succ_lt_succ hjl, hjle⟩

theorem findLane_none (s : ℚ) :
    ∀ l : List ℚ, findLane s l = none → ∀ e ∈ l, s + laneEps < e := by
  intro l
  induction l with
  | nil => intro _ e he; exact absurd he (by simp)
  | cons e es ih =>
    intro h e2 he2
    rw [findLane] at h
    by_cases he : e ≤ s + laneEps
    · rw [if_pos he] at h
      exact absurd h (by simp)
    · rw [if_neg he, Option.map_eq_none'] at h
      rcases List.mem_cons.mp he2 with rfl | he3
      · exact lt_of_not_le he
      · exact ih h e2 he3

theorem getD_set_self : ∀ (l : List ℚ) (i : ℕ) (x : ℚ), i < l.length →
    (l.set i x).getD i 0 = x := by
  intro l
  induction l with
  | nil => intro i x h; exact absurd h (by simp)
  | cons e es ih =>
    intro i x h
    cases i with
    | zero => rfl
    | succ j => exact ih j x (by simpa using h)

theorem getD_set_ne : ∀ (l : List ℚ) (i j : ℕ) (x : ℚ), i ≠ j →
    (l.set i x).getD j 0 = l.getD j 0 := by
  intro l
  induction l with
  | nil => intro i j x _; simp
  | cons e es ih =>
    intro i j x hne
    cases i with
    | zero =>
      cases j with
      | zero => exact absurd rfl hne
      | succ j2 => rfl
    | succ i2 =>
      cases j with
      | zero => rfl
      | succ j2 => exact ih i2 j2 x (fun hc => hne (by rw [hc]))

theorem getD_append_left : ∀ (l l2 : List ℚ) (i : ℕ), i < l.length →
    ((l ++ l2).getD i 0) = l.getD i 0 := by
  intro l
  induction l with
  | nil => intro l2 i h; exact absurd h (by simp)
  | cons e es ih =>
    intro l2 i h
    cases i with
    | zero => rfl
    | succ j => exact ih l2 j (by simpa using h)

theorem getD_append_self : ∀ (l : List ℚ) (x : ℚ), ((l ++ [x]).getD l.length 0) = x := by
  intro l
  induction l with
  | nil => intro x; rfl
  | cons e es ih => intro x; exact ih x

theorem countP_set (p : ℚ → Bool) :
    ∀ (l : List ℚ) (i : ℕ) (x : ℚ), i < l.length →
      (l.set i x).countP p + (if p (l.getD i 0) = true then 1 else 0) =
        l.countP p + (if p x = true then 1 else 0) := by
  intro l
  induction l with
  | nil => intro i x h; exact absurd h (by simp)
  | cons e es ih =>
    intro i x h
    cases i with
    | zero =>
      simp only [List.set, List.countP_cons, List.getD_cons_zero]
      omega
    | succ j =>
      have hj : j < es.length := by simpa using h
      have hrec := ih j x hj
      simp only [List.set, List.countP_cons, List.getD_cons_succ]
      omega

theorem countP_set_le_succ (p : ℚ → Bool) (l : List ℚ) (i : ℕ) (x : ℚ) (h : i < l.length) :
    (l.set i x).countP p ≤ l.countP p + 1 := by
  have h2 := countP_set p l i x h
  split_ifs at h2 <;> omega

theorem countP_set_le_of_imp (p : ℚ → Bool) (l : List ℚ) (i : ℕ) (x : ℚ) (h : i < l.length)
    (himp : p x = true → p (l.getD i 0) = true) :
    (l.set i x).countP p ≤ l.countP p := by
  have h2 := countP_set p l i x h
  by_cases hx : p x = true
  · rw [if_pos hx, if_pos (himp hx)] at h2
    omega
  · rw [if_neg hx] at h2
    omega

theorem startLe_append (P : List (Task × Seg × ℕ)) (c : Task × Seg) (lane : ℕ)
    (R2 : List (Task × Seg))
    (hPR : ∀ pl ∈ P, ∀ r ∈ c :: R2, pl.2.1.startUnit ≤ r.2.startUnit)
    (hhead : ∀ r ∈ R2, c.2.startUnit ≤ r.2.startUnit) :
    ∀ pl ∈ P ++ [(c.1, c.2, lane)], ∀ r ∈ R2, pl.2.1.startUnit ≤ r.2.startUnit := by
  intro pl hpl r hr
  rcases List.mem_append.mp hpl with hplP | hplc
  · exact hPR pl hplP r (List.mem_cons_of_mem _ hr)
  · obtain rfl := List.mem_singleton.mp hplc
    exact hhead r hr

theorem depthRun_append (m : ℕ) (P : List (Task × Seg × ℕ)) (c : Task × Seg) (lane : ℕ)
    (R2 : List (Task × Seg))
    (hDepthRun : ∀ t : ℚ, P.countP (placedHasB t) + ((c :: R2).countP (segHasB t)) ≤ m) :
    ∀ t : ℚ, (P ++ [(c.1, c.2, lane)]).countP (placedHasB t) + R2.countP (segHasB t) ≤ m := by
  intro t
  have h1 := hDepthRun t
  rw [List.countP_cons] at h1
  rw [List.countP_append, List.countP_cons, List.countP_nil,
    show placedHasB t (c.1, c.2, lane) = segHasB t c from rfl]
  omega

theorem assignGo_spec (m : ℕ) (hm : 1 ≤ m) :
    ∀ (R : List (Task × Seg)) (st : List ℚ) (P : List (Task × Seg × ℕ)),
      List.Pairwise (fun a b : Task × Seg => a.2.startUnit ≤ b.2.startUnit) R →
      (∀ pl ∈ P, ∀ r ∈ R, pl.2.1.startUnit ≤ r.2.startUnit) →
      (∀ pl ∈ P, pl.2.2 < st.length) →
      st.length ≤ m →
      (∀ pl ∈ P, pl.2.1.endUnit ≤ st.getD pl.2.2 0 ∨
        ∀ r ∈ R, pl.2.1.endUnit ≤ r.2.startUnit + laneEps) →
      (∀ t : ℚ, (∀ pl ∈ P, pl.2.1.startUnit ≤ t) →
        st.countP (fun e => decide (t + laneEps < e)) ≤ P.countP (placedHasB t)) →
      (∀ t : ℚ, P.countP (placedHasB t) + R.countP (segHasB t) ≤ m) →
      List.Pairwise okPair P →
      List.Pairwise okPair (P ++ (assignGo m R st).1) := by
  intro R
  induction R with
  | nil =>
    intro st P _ _ _ _ _ _ _ hGood
    simpa [assignGo] using hGood
  | cons c R2 ih =>
    intro st P hSort hPR hLane hLen hEnd hCount hDepthRun hGood
    obtain ⟨hhead, hSort2⟩ := List.pairwise_cons.mp hSort
    have hPRc : ∀ pl ∈ P, pl.2.1.startUnit ≤ c.2.startUnit :=
      fun pl hpl => hPR pl hpl c (List.mem_cons_self _ _)
    have hgo : (assignGo m (c :: R2) st).1 =
        (c.1, c.2, (assignStep m st c.2).2) :: (assignGo m R2 (assignStep m st c.2).1).1 := rfl
    rw [hgo, List.append_cons]
    rcases hfl : findLane c.2.startUnit st with _ | i
    · -- no free lane found
      by_cases hlt : st.length < m
      · -- open a new lane
        have hstep : assignStep m st c.2 = (st ++ [c.2.endUnit], st.length) := by
          rw [assignStep, hfl]
          exact if_pos hlt
        rw [hstep]
        refine ih (st ++ [c.2.endUnit]) (P ++ [(c.1, c.2, st.length)]) hSort2
          (startLe_append P c st.length R2 hPR hhead) ?_ ?_ ?_ ?_
          (depthRun_append m P c st.length R2 hDepthRun) ?_
        · intro pl hpl
          rw [List.length_append, List.length_singleton]
          rcases List.mem_append.mp hpl with hplP | hplc
          · exact lt_trans (hLane pl hplP) (Nat.lt_succ_self _)
          · obtain rfl := List.mem_singleton.mp hplc
            exact Nat.lt_succ_self _
        · rw [List.length_append, List.length_singleton]
          omega
        · intro pl hpl
          rcases List.mem_append.mp hpl with hplP | hplc
          · rcases hEnd pl hplP with hle | hall
            · left
              rw [getD_append_left st [c.2.endUnit] pl.2.2 (hLane pl hplP)]
              exact hle
            · right
              exact fun r hr => hall r (List.mem_cons_of_mem _ hr)
          · obtain rfl := List.mem_singleton.mp hplc
            left
            show c.2.endUnit ≤ (st ++ [c.2.endUnit]).getD st.length 0
            rw [getD_append_self]
        · intro t htall
          have htP : ∀ pl ∈ P, pl.2.1.startUnit ≤ t :=
            fun pl h => htall pl (List.mem_append_left _ h)
          have htc : c.2.startUnit ≤ t :=
            htall (c.1, c.2, st.length) (List.mem_append_right _ (List.mem_singleton_self _))
          have hOld := hCount t htP
          rw [List.countP_append, List.countP_append, List.countP_cons, List.countP_nil,
            List.countP_cons, List.countP_nil]
          by_cases hce : t + laneEps < c.2.endUnit
          · have hhc : placedHasB t (c.1, c.2, st.length) = true :=
              decide_eq_true ⟨htc, lt_of_lt_of_le (lt_add_of_pos_right t laneEps_pos) hce.le⟩
            rw [if_pos hhc, if_pos (decide_eq_true hce)]
            omega
          · rw [if_neg (fun hc => hce (of_decide_eq_true hc))]
            omega
        · rw [List.pairwise_append]
          refine ⟨hGood, List.pairwise_singleton _ _, ?_⟩
          intro p1 hp1 p2 hp2
          obtain rfl := List.mem_singleton.mp hp2
          show p1.2.2 = st.length →
            ¬ (max p1.2.1.startUnit c.2.startUnit + laneEps <
               min p1.2.1.endUnit c.2.endUnit)
          intro hleq
          exact absurd hleq (Nat.ne_of_lt (hLane p1 hp1))
      · -- at the cap
        have hlenEq : st.length = m := le_antisymm hLen (not_lt.mp hlt)
        have hallgt := findLane_none c.2.startUnit st hfl
        by_cases hdeg : c.2.startUnit < c.2.endUnit
        · -- impossible: the depth bound would be exceeded
          exfalso
          have hfull : st.countP (fun e => decide (c.2.startUnit + laneEps < e)) = st.length :=
            List.countP_eq_length.mpr (fun e he => decide_eq_true (hallgt e he))
          have h1 := hCount c.2.startUnit hPRc
          have h2 := hDepthRun c.2.startUnit
          have h3 : segHasB c.2.startUnit c = true :=
            decide_eq_true ⟨le_refl _, hdeg⟩
          rw [List.countP_cons, if_pos h3] at h2
          omega
        · -- degenerate forced segment
          have hm1lt : m - 1 < st.length := by omega
          have hstep : assignStep m st c.2 =
              (st.set (m - 1) (max (st.getD (m - 1) 0) c.2.endUnit), m - 1) := by
            rw [assignStep, hfl]
            exact if_neg hlt
          rw [hstep]
          refine ih (st.set (m - 1) (max (st.getD (m - 1) 0) c.2.endUnit))
            (P ++ [(c.1, c.2, m - 1)]) hSort2
            (startLe_append P c (m - 1) R2 hPR hhead) ?_ ?_ ?_ ?_
            (depthRun_append m P c (m - 1) R2 hDepthRun) ?_
          · intro pl hpl
            rw [List.length_set]
            rcases List.mem_append.mp hpl with hplP | hplc
            · exact hLane pl hplP
            · obtain rfl := List.mem_singleton.mp hplc
              show m - 1 < st.length
              omega
          · rw [List.length_set]
            exact hLen
          · intro pl hpl
            rcases List.mem_append.mp hpl with hplP | hplc
            · rcases hEnd pl hplP with hle | hall
              · left
                by_cases hpi : pl.2.2 = m - 1
                · rw [hpi, getD_set_self st (m - 1) _ hm1lt]
                  rw [hpi] at hle
                  exact le_trans hle (le_max_left _ _)
                · rw [getD_set_ne st (m - 1) pl.2.2 _ (fun hc => hpi hc.symm)]
                  exact hle
              · right
                exact fun r hr => hall r (List.mem_cons_of_mem _ hr)
            · obtain rfl := List.mem_singleton.mp hplc
              left
              show c.2.endUnit ≤ (st.set (m - 1) (max (st.getD (m - 1) 0) c.2.endUnit)).getD (m - 1) 0
              rw [getD_set_self st (m - 1) _ hm1lt]
              exact le_max_right _ _
          · intro t htall
            have htP : ∀ pl ∈ P, pl.2.1.startUnit ≤ t :=
              fun pl h => htall pl (List.mem_append_left _ h)
            have htc : c.2.startUnit ≤ t :=
              htall (c.1, c.2, m - 1) (List.mem_append_right _ (List.mem_singleton_self _))
            have hOld := hCount t htP
            rw [List.countP_append, List.countP_cons, List.countP_nil]
            by_cases hce : t + laneEps < c.2.endUnit
            · have hhc : placedHasB t (c.1, c.2, m - 1) = true :=
                decide_eq_true ⟨htc, lt_of_lt_of_le (lt_add_of_pos_right t laneEps_pos) hce.le⟩
              rw [if_pos hhc]
              have h1 := countP_set_le_succ (fun e => decide (t + laneEps < e)) st (m - 1)
                (max (st.getD (m - 1) 0) c.2.endUnit) hm1lt
              omega
            · have himp : decide (t + laneEps < max (st.getD (m - 1) 0) c.2.endUnit) = true →
                  decide (t + laneEps < st.getD (m - 1) 0) = true := by
                intro hc
                rcases lt_max_iff.mp (of_decide_eq_true hc) with h | h
                · exact decide_eq_true h
                · exact absurd h hce
              have h1 := countP_set_le_of_imp (fun e => decide (t + laneEps < e)) st (m - 1)
                (max (st.getD (m - 1) 0) c.2.endUnit) hm1lt himp
              omega
          · rw [List.pairwise_append]
            refine ⟨hGood, List.pairwise_singleton _ _, ?_⟩
            intro p1 hp1 p2 hp2
            obtain rfl := List.mem_singleton.mp hp2
            show p1.2.2 = m - 1 →
              ¬ (max p1.2.1.startUnit c.2.startUnit + laneEps <
                 min p1.2.1.endUnit c.2.endUnit)
            intro _ hcontra
            have h1 : min p1.2.1.endUnit c.2.endUnit ≤ c.2.endUnit := min_le_right _ _
            have h2 : c.2.startUnit ≤ max p1.2.1.startUnit c.2.startUnit := le_max_right _ _
            have h3 : c.2.endUnit ≤ c.2.startUnit := not_lt.mp hdeg
            have h4 := laneEps_pos
            linarith
    · -- a free lane was found
      obtain ⟨hiLt, hiLe⟩ := findLane_some c.2.startUnit st i hfl
      have hstep : assignStep m st c.2 = (st.set i c.2.endUnit, i) := by
        rw [assignStep, hfl]
      rw [hstep]
      refine ih (st.set i c.2.endUnit) (P ++ [(c.1, c.2, i)]) hSort2
        (startLe_append P c i R2 hPR hhead) ?_ ?_ ?_ ?_
        (depthRun_append m P c i R2 hDepthRun) ?_
      · intro pl hpl
        rw [List.length_set]
        rcases List.mem_append.mp hpl with hplP | hplc
        · exact hLane pl hplP
        · obtain rfl := List.mem_singleton.mp hplc
          exact hiLt
      · rw [List.length_set]
        exact hLen
      · intro pl hpl
        rcases List.mem_append.mp hpl with hplP | hplc
        · rcases hEnd pl hplP with hle | hall
          · by_cases hpi : pl.2.2 = i
            · right
              intro r hr
              rw [hpi] at hle
              have h2 := hhead r hr
              linarith [hiLe]
            · left
              rw [getD_set_ne st i pl.2.2 _ (fun hc => hpi hc.symm)]
              exact hle
          · right
            exact fun r hr => hall r (List.mem_cons_of_mem _ hr)
        · obtain rfl := List.mem_singleton.mp hplc
          left
          show c.2.endUnit ≤ (st.set i c.2.endUnit).getD i 0
          rw [getD_set_self st i _ hiLt]
      · intro t htall
        have htP : ∀ pl ∈ P, pl.2.1.startUnit ≤ t :=
          fun pl h => htall pl (List.mem_append_left _ h)
        have htc : c.2.startUnit ≤ t :=
          htall (c.1, c.2, i) (List.mem_append_right _ (List.mem_singleton_self _))
        have hOld := hCount t htP
        rw [List.countP_append, List.countP_cons, List.countP_nil]
        by_cases hce : t + laneEps < c.2.endUnit
        · have hhc : placedHasB t (c.1, c.2, i) = true :=
            decide_eq_true ⟨htc, lt_of_lt_of_le (lt_add_of_pos_right t laneEps_pos) hce.le⟩
          rw [if_pos hhc]
          have h1 := countP_set_le_succ (fun e => decide (t + laneEps < e)) st i c.2.endUnit hiLt
          omega
        · have himp : decide (t + laneEps < c.2.endUnit) = true →
              decide (t + laneEps < st.getD i 0) = true :=
            fun hc => absurd (of_decide_eq_true hc) hce
          have h1 := countP_set_le_of_imp (fun e => decide (t + laneEps < e)) st i
            c.2.endUnit hiLt himp
          omega
      · rw [List.pairwise_append]
        refine ⟨hGood, List.pairwise_singleton _ _, ?_⟩
        intro p1 hp1 p2 hp2
        obtain rfl := List.mem_singleton.mp hp2
        show p1.2.2 = i →
          ¬ (max p1.2.1.startUnit c.2.startUnit + laneEps <
             min p1.2.1.endUnit c.2.endUnit)
        intro hleq hcontra
        have hple : p1.2.1.endUnit ≤ c.2.startUnit + laneEps := by
          rcases hEnd p1 hp1 with hle | hall
          · rw [hleq] at hle
            exact le_trans hle hiLe
          · exact hall c (List.mem_cons_self _ _)
        have h1 : min p1.2.1.endUnit c.2.endUnit ≤ p1.2.1.endUnit := min_le_left _ _
        have h2 : c.2.startUnit ≤ max p1.2.1.startUnit c.2.startUnit := le_max_right _ _
        linarith

/-- Claim C3 (amended, corrected): when at most maxLanes input segments
are simultaneously present at any instant, no two placed items sharing
a lane overlap by more than the epsilon tolerance 1e-9: the
intersection of their [startUnit, endUnit) intervals has length at most
laneEps.  The unamended claim (no overlap at all) fails, see the
counterexample. -/
theorem assignLanes_same_lane_sep :
    ∀ (items : List (Task × Seg)) (m : ℕ),
      depthBound items m → List.Pairwise okPair (placedOf items m) := by
  intro items m hD
  rcases Nat.eq_zero_or_pos m with rfl | hm
  · have hdeg : ∀ it ∈ items, it.2.endUnit ≤ it.2.startUnit := by
      intro it hit
      by_contra hlt
      push_neg at hlt
      have h1 : 0 < depthOf items it.2.startUnit :=
        List.countP_pos_iff.mpr ⟨it, hit, decide_eq_true ⟨le_refl _, hlt⟩⟩
      have h2 := hD it.2.startUnit
      omega
    have hmem : ∀ q ∈ placedOf items 0, (q.1, q.2.1) ∈ items := by
      intro q hq
      have h2 : (q.1, q.2.1) ∈ (placedOf items 0).map (fun q2 => (q2.1, q2.2.1)) :=
        List.mem_map_of_mem _ hq
      rw [show placedOf items 0 = (assignGo 0 (List.insertionSort segLE items) []).1 from rfl,
        assignGo_fst_map] at h2
      exact (List.perm_insertionSort segLE items).subset h2
    refine List.pairwise_of_forall_mem_list ?_
    intro a ha b hb
    show a.2.2 = b.2.2 →
      ¬ (max a.2.1.startUnit b.2.1.startUnit + laneEps <
         min a.2.1.endUnit b.2.1.endUnit)
    intro _ hcontra
    have hda : a.2.1.endUnit ≤ a.2.1.startUnit := hdeg _ (hmem a ha)
    have h1 : min a.2.1.endUnit b.2.1.endUnit ≤ a.2.1.endUnit := min_le_left _ _
    have h2 : a.2.1.startUnit ≤ max a.2.1.startUnit b.2.1.startUnit := le_max_left _ _
    linarith [laneEps_pos]
  · have hSortStarts :
        List.Pairwise (fun a b : Task × Seg => a.2.startUnit ≤ b.2.startUnit)
          (List.insertionSort segLE items) := by
      refine (List.sorted_insertionSort segLE items).imp ?_
      intro a b hab
      rcases hab with h | ⟨h, _⟩
      · exact le_of_lt h
      · exact le_of_eq h
    have h := assignGo_spec m hm (List.insertionSort segLE items) [] []
      hSortStarts (by simp) (by simp) (by simp) (by simp)
      (by intro t _; simp)
      (by
        intro t
        rw [List.countP_nil, Nat.zero_add,
          (List.perm_insertionSort segLE items).countP_eq]
        exact hD t)
      List.Pairwise.nil
    simpa using h

/-- Segment reaching just beyond 1, within the epsilon tolerance. -/
def cexA : Seg := ⟨0, 1 + 1 / 10000000000, "A"⟩

/-- Segment starting at 1. -/
def cexB : Seg := ⟨1, 2, "B"⟩

/-- Payload task for the lane counterexample and witness. -/
def cexTask : Task := ⟨"x", "r0", "X", 0, 0⟩

/-- Counterexample input: two segments overlapping by 1e-10. -/
def cexItems : List (Task × Seg) := [(cexTask, cexA), (cexTask, cexB)]

/-- Claim C3 counterexample: two segments that overlap by 1e-10 (below
the 1e-9 epsilon) satisfy the depth hypothesis with maxLanes = 2, yet
assignLanes places both in lane 0 with genuinely overlapping
[startUnit, endUnit) intervals. -/
theorem assignLanes_same_lane_overlap_cex :
    depthBound cexItems 2 ∧
    (placedOf cexItems 2).map (fun q => q.2.2) = [0, 0] ∧
    max cexA.startUnit cexB.startUnit < min cexA.endUnit cexB.endUnit := by
  refine ⟨?_, ?_, ?_⟩
  · intro t
    exact le_trans (List.countP_le_length _) (by norm_num [cexItems])
  · norm_num [placedOf, assignLanes, assignGo, assignStep, findLane, laneEps,
      List.insertionSort, List.orderedInsert, segLE, cexItems, cexA, cexB]
  · norm_num [cexA, cexB]

/-- Input for the C3 witness: two disjoint segments. -/
def wItems : List (Task × Seg) := [(cexTask, ⟨0, 1, "w1"⟩), (cexTask, ⟨5, 6, "w2"⟩)]

/-- Claim C3 witness: the theorem instantiated on two disjoint segments
with maxLanes = 1. -/
theorem assignLanes_same_lane_sep_witness :
    depthBound wItems 1 ∧ List.Pairwise okPair (placedOf wItems 1) := by
  have hd : depthBound wItems 1 := by
    intro t
    show List.countP (segHasB t) wItems ≤ 1
    simp only [wItems, List.countP_cons, List.countP_nil]
    by_cases h1 : segHasB t (cexTask, (⟨0, 1, "w1"⟩ : Seg)) = true <;>
      by_cases h2 : segHasB t (cexTask, (⟨5, 6, "w2"⟩ : Seg)) = true
    · exfalso
      have a1 : (0 : ℚ) ≤ t ∧ t < 1 := of_decide_eq_true h1
      have a2 : (5 : ℚ) ≤ t ∧ t < 6 := of_decide_eq_true h2
      linarith [a1.2, a2.1]
    · simp [h1, h2]
    · simp [h1, h2]
    · simp [h1, h2]
  exact ⟨hd, assignLanes_same_lane_sep wItems 1 hd⟩

/-- Claim C6 witness: the theorem instantiated on hour view with a
zero-width viewport. -/
theorem computeScale_spec_witness :
    (computeScale View.hour (Preset.hours 24) 0 (some 0)).pxPerUnit =
        viewportWidth (some 0) /
          max 1 (computeScale View.hour (Preset.hours 24) 0 (some 0)).visibleUnits ∧
    viewportWidth (some 0) = 1200 ∧
    0 < (computeScale View.hour (Preset.hours 24) 0 (some 0)).pxPerUnit := by
  have h := computeScale_spec View.hour (Preset.hours 24) 0 (some 0)
    (fun x hx => by
      obtain rfl : (0 : ℚ) = x := Option.some.inj hx
      exact le_refl 0)
  exact ⟨h.1, h.2.2.2.1 (Or.inr rfl), h.2.2.2.2⟩

/-- Claim C7 witness: the theorem instantiated on a quarter-unit snap
at ten pixels per unit. -/
theorem snapPx_idempotent_witness :
    (0 : ℚ) < 10 ∧ (0 : ℚ) < 1 / 4 ∧
    snapPx 10 (1 / 4) ((snapPx 10 (1 / 4) 37 : ℤ) : ℚ) = snapPx 10 (1 / 4) 37 :=
  ⟨by norm_num, by norm_num,
   snapPx_idempotent 10 (1 / 4) 37 (by norm_num) (by norm_num)⟩

end RobustGantt
